import Mathlib

/-!
Verification development for the REBOUND simulation runtime, as described by
the repository's specification.  The repository fragment under version control
contains only CI glue, a Makefile and example notebooks; the engine itself
(particle store, integration driver, escape watchdog, centre-of-mass
transform, orbital-element converter) is not present, so every definition
below is modelled from the specification text, with the notebook
`ipython_examples/EscapingParticles.ipynb` fixing observable details (the
escape message string, default integrator `ias15`, default timestep `0.001`,
default mass `0`).  Exact rational arithmetic stands in for the engine's
real-number state; the orbital-element converter is modelled over the reals.
-/

/-- Modelled from the spec (§3 Data model): a particle carries a mass,
radius is omitted (optional and unused by the claims), a position, a
velocity and an opaque hash identity.  Real-valued state is modelled by
exact rationals; the 64-bit hash is modelled by a natural number. -/
structure Particle where
  m : ℚ
  x : ℚ
  y : ℚ
  z : ℚ
  vx : ℚ
  vy : ℚ
  vz : ℚ
  hash : Nat
deriving DecidableEq

/-- Modelled from the spec (§7 Error handling): the failure kinds surfaced
to the caller.  Runtime failures carry the simulation time at which they
occurred. -/
inductive SimError where
  | EscapeDetected : ℚ → SimError
  | EncounterDetected : ℚ → SimError
  | InvalidOrbit : SimError
  | DuplicateHash : SimError
  | NoParticles : SimError
  | NotFound : SimError
deriving DecidableEq

/-- Modelled from the spec (§7): each failure carries a short human-readable
description; the escape message is fixed by the notebook output. -/
def SimError.message : SimError → String
  | .EscapeDetected _ => "A particle escaped (r>exit_max_distance)."
  | .EncounterDetected _ => "Two particles had a close encounter (d<exit_min_distance)."
  | .InvalidOrbit => "Invalid orbital elements."
  | .DuplicateHash => "Hash already in use."
  | .NoParticles => "No particles in the simulation."
  | .NotFound => "Particle not found."

/-- Modelled from the spec (§3 Simulation): current time `t`, timestep `dt`,
gravitational constant `G`, integrator selector, the ordered particle list,
the escape/encounter watchdog radii (`exit_max_distance = none` means
disabled, the default), a diagnostic step counter, and a counter from which
fresh hash identities are drawn (spec §3: hashes are unique among live
particles and never reused).  The fields `base`/`base_t` are the
integrator's internal state at the last completed full step: the spec
(§4.4, §9c) requires that the shortened `exact_finish` step be taken on a
scratch copy, "as if the short step had never been taken", so that
successive `integrate` calls reproduce a single long integration. -/
structure Simulation where
  t : ℚ
  dt : ℚ
  G : ℚ
  integrator : String
  particles : List Particle
  base : List Particle
  base_t : ℚ
  exit_max_distance : Option ℚ
  exit_min_distance : ℚ
  stepCount : Nat
  nextHash : Nat
deriving DecidableEq

/-- Modelled from the spec (§6 defaults) and the notebook status output:
a new simulation is empty, at time 0, with `G = 1`, integrator `ias15`,
timestep `0.001`, and the watchdogs disabled. -/
def Simulation.empty : Simulation :=
  { t := 0, dt := 1/1000, G := 1, integrator := "ias15", particles := [],
    base := [], base_t := 0, exit_max_distance := none,
    exit_min_distance := 0, stepCount := 0, nextHash := 0 }

/-- Squared distance of a particle from the origin of the inertial frame,
as computed in the notebook: `d2 = x*x + y*y + z*z`. -/
def dist2 (p : Particle) : ℚ := p.x * p.x + p.y * p.y + p.z * p.z

/-- Squared distance between two particles. -/
def pairDist2 (p q : Particle) : ℚ :=
  (p.x - q.x) * (p.x - q.x) + (p.y - q.y) * (p.y - q.y) + (p.z - q.z) * (p.z - q.z)

/-- Modelled from the spec (§4.5): the escape check.  `d > exit_max_distance`
for a non-negative radius is equivalent to the squared comparison the
notebook performs (`d2 > exit_max_distance**2`); `none` means the watchdog
is disabled. -/
def escaped (dmax : Option ℚ) (ps : List Particle) : Bool :=
  match dmax with
  | none => false
  | some d => ps.any (fun p => decide (d * d < dist2 p))

/-- Modelled from the spec (§4.5): the symmetric minimum-distance check,
true when some pair of particles is strictly closer than `dmin`.  With the
default `dmin = 0` it never fires. -/
def closePair (dmin : ℚ) : List Particle → Bool
  | [] => false
  | p :: rest => rest.any (fun q => decide (pairDist2 p q < dmin * dmin)) || closePair dmin rest

/-- Modelled from the spec (§4.4 item 3, §4.5): the watchdog invoked after
each completed step, at the step's end time `t'`. -/
def watchdog (dmax : Option ℚ) (dmin : ℚ) (t' : ℚ) (ps : List Particle) : Option SimError :=
  if escaped dmax ps then some (SimError.EscapeDetected t')
  else if closePair dmin ps then some (SimError.EncounterDetected t')
  else none

/-- Modelled from the spec (§4.3): the pluggable integrator capability.
Given a timestep and the particle array it advances the state by one step;
the spec only requires it to be deterministic. -/
structure Engine where
  step : ℚ → List Particle → List Particle

/-- Result of the internal stepping loop: the reached step-boundary time,
the state there, the number of completed full steps, and the watchdog
failure if one fired. -/
structure LoopResult where
  bt : ℚ
  base : List Particle
  n : Nat
  err : Option SimError
deriving DecidableEq

/-- Modelled from the spec (§4.4 item 2-4): repeatedly request full steps
of size `dt` while a whole step still fits before `tT`; after each
completed step invoke the watchdog, and on violation stop with `t` rolled
forward to the violating step's end time.  Fuel bounds the recursion; the
driver supplies enough of it. -/
def integrateLoop (eng : Engine) (dmax : Option ℚ) (dmin : ℚ) (dt tT : ℚ) :
    Nat → ℚ → List Particle → LoopResult
  | 0, bt, b => ⟨bt, b, 0, none⟩
  | fuel + 1, bt, b =>
    if bt + dt ≤ tT then
      let b' := eng.step dt b
      match watchdog dmax dmin (bt + dt) b' with
      | some e => ⟨bt + dt, b', 1, some e⟩
      | none =>
        let r := integrateLoop eng dmax dmin dt tT fuel (bt + dt) b'
        ⟨r.bt, r.base, r.n + 1, r.err⟩
    else ⟨bt, b, 0, none⟩

/-- Fuel sufficient for all the full steps between `bt` and `tT`. -/
def stepsNeeded (bt dt tT : ℚ) : Nat := (Int.toNat ⌈(tT - bt) / dt⌉)

/-- Modelled from the spec (§4.4): the shortened `exact_finish` step
producing the visible state at exactly `tT` from the last completed step
boundary; when `tT` lands on the boundary no extra step is taken. -/
def finishStep (eng : Engine) (bt tT : ℚ) (b : List Particle) : List Particle :=
  if tT = bt then b else eng.step (tT - bt) b

/-- Modelled from the spec (§4.4 `integrate(t_target, exact_finish=true)`):
if `t_target = t` return immediately; otherwise run full steps from the
internal step lattice, watchdog after each.  On a watchdog violation the
simulation is left at the violating step's end time with its state, and
the failure is returned; otherwise the visible particles are produced by
the shortened final step while the internal state stays at the last full
step boundary (spec §4.4, §9c), and `t` becomes exactly `t_target`.
Mutation is modelled by returning the updated simulation next to the
optional failure. -/
def Simulation.integrate (eng : Engine) (sim : Simulation) (tT : ℚ) :
    Simulation × Option SimError :=
  if tT = sim.t then (sim, none)
  else
    let r := integrateLoop eng sim.exit_max_distance sim.exit_min_distance
      sim.dt tT (stepsNeeded sim.base_t sim.dt tT) sim.base_t sim.base
    match r.err with
    | some e =>
      ({ sim with base := r.base, base_t := r.bt, t := r.bt, particles := r.base,
                  stepCount := sim.stepCount + r.n }, some e)
    | none =>
      ({ sim with base := r.base, base_t := r.bt, t := tT,
                  particles := finishStep eng r.bt tT r.base,
                  stepCount := sim.stepCount + r.n }, none)

/-- Modelled from the spec (§9 design notes): add/remove are topology
changes, so the integrator's internal scratch state is re-initialised to
the visible particle state. -/
def Simulation.touch (sim : Simulation) (ps : List Particle) : Simulation :=
  { sim with particles := ps, base := ps, base_t := sim.t }

/-- True when some live particle already carries hash `h`. -/
def hashInUse (sim : Simulation) (h : Nat) : Bool :=
  sim.particles.any (fun p => p.hash == h)

/-- Modelled from the spec (§4.1): append a particle, with `DuplicateHash`
when an explicit hash is already in use, and a fresh engine-chosen hash
otherwise (spec §3: hashes unique among live particles, never reused —
hence the monotone `nextHash` counter).  `mk` builds the particle from its
assigned hash. -/
def Simulation.appendWith (sim : Simulation) (mk : Nat → Particle) (h : Option Nat) :
    Simulation × Option SimError :=
  match h with
  | some hv =>
    if hashInUse sim hv then (sim, some SimError.DuplicateHash)
    else ({ sim.touch (sim.particles ++ [mk hv]) with
            nextHash := max sim.nextHash (hv + 1) }, none)
  | none =>
    ({ sim.touch (sim.particles ++ [mk sim.nextHash]) with
       nextHash := sim.nextHash + 1 }, none)

/-- Modelled from the spec (§4.2, §6): the classical orbital-element set of
an add descriptor, with the parabolic marker mentioned in §4.1. -/
structure OrbElems where
  a : ℚ
  e : ℚ
  inc : ℚ
  Omega : ℚ
  omega : ℚ
  f : ℚ
  parabolic : Bool
deriving DecidableEq

/-- Modelled from the spec (§4.1): orbital elements are geometrically
impossible when `e < 0`, when `a = 0`, or when `e = 1` without the
parabolic marker. -/
def validOrbit (o : OrbElems) : Bool :=
  !(decide (o.e < 0)) && !(decide (o.a = 0)) && !(decide (o.e = 1) && !o.parabolic)

/-- Modelled from the spec (§6): an add descriptor is either a full
Cartesian state or orbital elements; the mass and the explicit hash are
optional. -/
inductive AddSpec where
  | cart (m : Option ℚ) (x y z vx vy vz : ℚ) (h : Option Nat)
  | orbital (m : Option ℚ) (o : OrbElems) (h : Option Nat)
deriving DecidableEq

/-- The optional mass of an add descriptor. -/
def AddSpec.mass : AddSpec → Option ℚ
  | .cart m _ _ _ _ _ _ _ => m
  | .orbital m _ _ => m

/-- Modelled from the spec (§4.1 `add`): validate, then append
transactionally.  A Cartesian descriptor is stored directly; orbital
elements are first validated (`InvalidOrbit`), require a primary
(`NoParticles` on an empty store) and are converted to Cartesian
coordinates by the pluggable converter `conv` (the real-valued converter
is modelled separately; the store only needs its output).  A missing mass
defaults to `0`, as the notebook output shows. -/
def Simulation.add (conv : OrbElems → ℚ → ℚ × ℚ × ℚ × ℚ × ℚ × ℚ)
    (sim : Simulation) : AddSpec → Simulation × Option SimError
  | .cart m x y z vx vy vz h =>
    sim.appendWith (fun hv => ⟨m.getD 0, x, y, z, vx, vy, vz, hv⟩) h
  | .orbital m o h =>
    if !validOrbit o then (sim, some SimError.InvalidOrbit)
    else if sim.particles.isEmpty then (sim, some SimError.NoParticles)
    else
      match conv o sim.G with
      | (x, y, z, vx, vy, vz) =>
        sim.appendWith (fun hv => ⟨m.getD 0, x, y, z, vx, vy, vz, hv⟩) h

/-- Modelled from the spec (§4.1 `remove(index)`): remove the designated
particle, compacting the internal order; `NotFound` when the index does
not resolve. -/
def Simulation.removeIndex (sim : Simulation) (i : Nat) : Simulation × Option SimError :=
  if i < sim.particles.length then (sim.touch (sim.particles.eraseIdx i), none)
  else (sim, some SimError.NotFound)

/-- Modelled from the spec (§4.1 `remove(hash)`): resolve the hash to an
index and remove there; `NotFound` when it does not resolve. -/
def Simulation.removeHash (sim : Simulation) (h : Nat) : Simulation × Option SimError :=
  match sim.particles.findIdx? (fun p => p.hash == h) with
  | some i => sim.removeIndex i
  | none => (sim, some SimError.NotFound)

/-- A removal designator: by index or by hash (spec §4.1). -/
inductive RemovalTarget where
  | byIndex (i : Nat)
  | byHash (h : Nat)
deriving DecidableEq

/-- Modelled from the spec (§4.1): removal by either designator. -/
def Simulation.remove (sim : Simulation) : RemovalTarget → Simulation × Option SimError
  | .byIndex i => sim.removeIndex i
  | .byHash h => sim.removeHash h

/-- Modelled from the spec (§4.1 `get_by_hash`): hash-based lookup,
resolving to the first live particle with that hash. -/
def Simulation.getByHash (sim : Simulation) (h : Nat) : Option Particle :=
  sim.particles.find? (fun p => p.hash == h)

/-- Modelled from the spec (§4.1 `get_by_index`): index-based lookup. -/
def Simulation.getByIndex (sim : Simulation) (i : Nat) : Option Particle :=
  sim.particles[i]?

/-- Total mass of a particle list. -/
def totalMass (ps : List Particle) : ℚ := (ps.map Particle.m).sum

/-- Mass-weighted sum of a particle attribute. -/
def wsum (f : Particle → ℚ) (ps : List Particle) : ℚ :=
  (ps.map (fun p => p.m * f p)).sum

/-- Modelled from the spec (§4.6 `move_to_com`): compute the mass-weighted
mean position and velocity and subtract them from every particle. -/
def Simulation.move_to_com (sim : Simulation) : Simulation :=
  let ps := sim.particles
  let M := totalMass ps
  let Rx := wsum Particle.x ps / M
  let Ry := wsum Particle.y ps / M
  let Rz := wsum Particle.z ps / M
  let Vx := wsum Particle.vx ps / M
  let Vy := wsum Particle.vy ps / M
  let Vz := wsum Particle.vz ps / M
  sim.touch (ps.map (fun p =>
    { p with x := p.x - Rx, y := p.y - Ry, z := p.z - Rz,
             vx := p.vx - Vx, vy := p.vy - Vy, vz := p.vz - Vz }))

/-- A store mutation: an add or a remove (spec §8, first invariant). -/
inductive StoreOp where
  | addOp (spec : AddSpec)
  | removeOp (tgt : RemovalTarget)
deriving DecidableEq

/-- Run a sequence of store mutations; the Boolean records whether every
operation succeeded (a failed operation stops the run). -/
def runOps (conv : OrbElems → ℚ → ℚ × ℚ × ℚ × ℚ × ℚ × ℚ) :
    Simulation → List StoreOp → Simulation × Bool
  | sim, [] => (sim, true)
  | sim, op :: rest =>
    let r := match op with
      | .addOp s => Simulation.add conv sim s
      | .removeOp tgt => sim.remove tgt
    match r.2 with
    | some _ => (r.1, false)
    | none => runOps conv r.1 rest

/-- Number of add operations in a sequence. -/
def countAdds (ops : List StoreOp) : Nat :=
  ops.countP (fun op => match op with | .addOp _ => true | _ => false)

/-- Number of remove operations in a sequence. -/
def countRemoves (ops : List StoreOp) : Nat :=
  ops.countP (fun op => match op with | .removeOp _ => true | _ => false)

/-- The hash-identity invariant of the store (spec §3): live hashes are
pairwise distinct and below the fresh-hash counter. -/
def HashesOK (sim : Simulation) : Prop :=
  (sim.particles.map Particle.hash).Nodup ∧ ∀ p ∈ sim.particles, p.hash < sim.nextHash

/-- A three-vector over the reals, for the orbital-element converter
(spec §4.2), which works in the engine's real-number state space. -/
structure Vec3 where
  x : ℝ
  y : ℝ
  z : ℝ

/-- Dot product of three-vectors. -/
def Vec3.dot (u v : Vec3) : ℝ := u.x * v.x + u.y * v.y + u.z * v.z

/-- Cross product of three-vectors. -/
def Vec3.cross (u v : Vec3) : Vec3 :=
  ⟨u.y * v.z - u.z * v.y, u.z * v.x - u.x * v.z, u.x * v.y - u.y * v.x⟩

/-- Rotation about the z-axis by angle `θ`. -/
noncomputable def rotZ (θ : ℝ) (v : Vec3) : Vec3 :=
  ⟨Real.cos θ * v.x - Real.sin θ * v.y, Real.sin θ * v.x + Real.cos θ * v.y, v.z⟩

/-- Rotation about the x-axis by angle `θ`. -/
noncomputable def rotX (θ : ℝ) (v : Vec3) : Vec3 :=
  ⟨v.x, Real.cos θ * v.y - Real.sin θ * v.z, Real.sin θ * v.y + Real.cos θ * v.z⟩

/-- The orbit-frame rotation: argument of periapsis `ω` about z, then
inclination `i` about x, then longitude of ascending node `Ω` about z. -/
noncomputable def orbRot (Om inc om : ℝ) (v : Vec3) : Vec3 :=
  rotZ Om (rotX inc (rotZ om v))

/-- Modelled from the spec (§4.2): elements → Cartesian.  With
gravitational parameter `μ = G·(m_primary + m)`, semi-major axis `a`,
eccentricity `e` and true anomaly `f`, the radius is
`r = a(1-e²)/(1+e cos f)` and the specific angular momentum is
`h = √(μ a (1-e²))`; the perifocal position and velocity are rotated into
the inertial frame by `Ω, i, ω`.  This is the standard Kepler
parametrisation the spec's converter contract refers to. -/
noncomputable def elemsToCart (mu a e inc Om om f : ℝ) : Vec3 × Vec3 :=
  let r := a * (1 - e ^ 2) / (1 + e * Real.cos f)
  let h := Real.sqrt (mu * a * (1 - e ^ 2))
  let pos : Vec3 := ⟨r * Real.cos f, r * Real.sin f, 0⟩
  let vel : Vec3 := ⟨-(mu / h) * Real.sin f, (mu / h) * (e + Real.cos f), 0⟩
  (orbRot Om inc om pos, orbRot Om inc om vel)

/-- Modelled from the spec (§4.2): Cartesian → semi-major axis, by the
vis-viva relation `1/a = 2/r - v²/μ`. -/
noncomputable def cartToA (mu : ℝ) (pos vel : Vec3) : ℝ :=
  1 / (2 / Real.sqrt (pos.dot pos) - vel.dot vel / mu)

/-- Modelled from the spec (§4.2): Cartesian → eccentricity, from the
angular-momentum magnitude via `h² = μ a (1-e²)`. -/
noncomputable def cartToE (mu : ℝ) (pos vel : Vec3) : ℝ :=
  Real.sqrt (1 - (pos.cross vel).dot (pos.cross vel) / (mu * cartToA mu pos vel))

/-- In a store with pairwise-distinct hashes, `find?` on a live particle's
hash resolves to exactly that particle. -/
theorem find?_hash_of_nodup (l : List Particle) (p : Particle)
    (hnd : (l.map Particle.hash).Nodup) (hp : p ∈ l) :
    l.find? (fun q => q.hash == p.hash) = some p := by
  induction l with
  | nil => cases hp
  | cons q rest ih =>
    rcases List.mem_cons.mp hp with rfl | hmem
    · exact List.find?_cons_of_pos _ (by simp)
    · have hnd' := hnd
      rw [List.map_cons, List.nodup_cons] at hnd'
      have hne : q.hash ≠ p.hash := by
        intro hEq
        exact hnd'.1 (hEq ▸ List.mem_map_of_mem Particle.hash hmem)
      rw [List.find?_cons_of_neg _ (by simpa using hne)]
      exact ih hnd'.2 hmem

/-- A successful removal (by index) erases exactly the designated index. -/
theorem removeIndex_success (sim : Simulation) (i : Nat) (sim' : Simulation)
    (h : sim.removeIndex i = (sim', none)) :
    i < sim.particles.length ∧ sim' = sim.touch (sim.particles.eraseIdx i) := by
  by_cases hi : i < sim.particles.length
  · refine ⟨hi, ?_⟩
    rw [Simulation.removeIndex, if_pos hi] at h
    exact (Prod.mk.injEq _ _ _ _ ▸ h).1.symm
  · rw [Simulation.removeIndex, if_neg hi] at h
    exact absurd (Prod.mk.injEq _ _ _ _ ▸ h).2 (by simp)

/-- The survivor facts established by erasing index `i` from a store with
pairwise-distinct hashes. -/
theorem removeIndex_keeps (sim : Simulation) (i : Nat)
    (hnd : (sim.particles.map Particle.hash).Nodup)
    (hi : i < sim.particles.length) :
    (sim.touch (sim.particles.eraseIdx i)).particles = sim.particles.eraseIdx i ∧
      (∀ j, j < i → (sim.touch (sim.particles.eraseIdx i)).getByIndex j = sim.getByIndex j) ∧
      (∀ j, i ≤ j → (sim.touch (sim.particles.eraseIdx i)).getByIndex j = sim.getByIndex (j + 1)) ∧
      List.Sublist (sim.particles.eraseIdx i) sim.particles ∧
      ∀ p ∈ sim.particles.eraseIdx i,
        (sim.touch (sim.particles.eraseIdx i)).getByHash p.hash = some p ∧
          sim.getByHash p.hash = some p := by
  have hsub : List.Sublist (sim.particles.eraseIdx i) sim.particles :=
    List.eraseIdx_sublist _ _
  have hnd' : ((sim.particles.eraseIdx i).map Particle.hash).Nodup :=
    hnd.sublist (hsub.map _)
  refine ⟨rfl, ?_, ?_, hsub, ?_⟩
  · intro j hj
    exact List.getElem?_eraseIdx_of_lt _ _ _ hj
  · intro j hj
    exact List.getElem?_eraseIdx_of_ge _ _ _ hj
  · intro p hp
    exact ⟨find?_hash_of_nodup _ p hnd' hp,
      find?_hash_of_nodup _ p hnd (hsub.mem hp)⟩

/-- C2: for every particle store whose live hashes are pairwise distinct and
every successful removal of one particle (by index or by hash), the
surviving store is the designated index erased: surviving particles keep
their records (hence their hashes), indices below the erased one are
unchanged while later ones shift down by one, the survivors form a sublist
of the original order (relative order kept), and a hash lookup of any
survivor resolves to the same particle before and after the removal. -/
theorem remove_keeps_survivors (sim : Simulation) (tgt : RemovalTarget) (sim' : Simulation)
    (hnd : (sim.particles.map Particle.hash).Nodup)
    (h : sim.remove tgt = (sim', none)) :
    ∃ i, i < sim.particles.length ∧ sim'.particles = sim.particles.eraseIdx i ∧
      (∀ j, j < i → sim'.getByIndex j = sim.getByIndex j) ∧
      (∀ j, i ≤ j → sim'.getByIndex j = sim.getByIndex (j + 1)) ∧
      List.Sublist sim'.particles sim.particles ∧
      ∀ p ∈ sim'.particles, sim'.getByHash p.hash = some p ∧ sim.getByHash p.hash = some p := by
  have main : ∀ i, sim.removeIndex i = (sim', none) →
      ∃ i, i < sim.particles.length ∧ sim'.particles = sim.particles.eraseIdx i ∧
        (∀ j, j < i → sim'.getByIndex j = sim.getByIndex j) ∧
        (∀ j, i ≤ j → sim'.getByIndex j = sim.getByIndex (j + 1)) ∧
        List.Sublist sim'.particles sim.particles ∧
        ∀ p ∈ sim'.particles, sim'.getByHash p.hash = some p ∧ sim.getByHash p.hash = some p := by
    intro i hri
    obtain ⟨hi, rfl⟩ := removeIndex_success sim i sim' hri
    obtain ⟨h1, h2, h3, h4, h5⟩ := removeIndex_keeps sim i hnd hi
    exact ⟨i, hi, h1, h2, h3, h4, h5⟩
  cases tgt with
  | byIndex i => exact main i h
  | byHash hv =>
    rw [Simulation.remove] at h
    cases hfi : sim.particles.findIdx? (fun p => p.hash == hv) with
    | some i =>
      rw [Simulation.removeHash, hfi] at h
      exact main i h
    | none =>
      rw [Simulation.removeHash, hfi] at h
      exact absurd (Prod.mk.injEq _ _ _ _ ▸ h).2 (by simp)

/-- C4: integrating to the current simulation time returns immediately and
leaves the entire simulation state (time, particles, counters) unchanged,
for every engine and every simulation state. -/
theorem integrate_current_time_noop (eng : Engine) (sim : Simulation) :
    sim.integrate eng sim.t = (sim, none) := by
  rw [Simulation.integrate, if_pos rfl]

/-- C6: an `add` that fails (in particular with `InvalidOrbit` or
`DuplicateHash`) is transactional: the returned simulation is exactly the
one passed in, with no particle appended and no field modified. -/
theorem add_failure_transactional (conv : OrbElems → ℚ → ℚ × ℚ × ℚ × ℚ × ℚ × ℚ)
    (sim : Simulation) (spec : AddSpec) (sim' : Simulation) (e : SimError)
    (h : Simulation.add conv sim spec = (sim', some e)) : sim' = sim := by
  have appendCase : ∀ (mk : Nat → Particle) (hv : Option Nat),
      sim.appendWith mk hv = (sim', some e) → sim' = sim := by
    intro mk hv hap
    cases hv with
    | none =>
      rw [Simulation.appendWith] at hap
      exact absurd (Prod.mk.injEq _ _ _ _ ▸ hap).2 (by simp)
    | some v =>
      rw [Simulation.appendWith] at hap
      by_cases hu : hashInUse sim v
      · rw [if_pos hu] at hap
        exact (Prod.mk.injEq _ _ _ _ ▸ hap).1.symm
      · rw [if_neg hu] at hap
        exact absurd (Prod.mk.injEq _ _ _ _ ▸ hap).2 (by simp)
  cases spec with
  | cart m x y z vx vy vz hv =>
    exact appendCase _ hv h
  | orbital m o hv =>
    rw [Simulation.add] at h
    by_cases hval : validOrbit o
    · rw [hval] at h
      simp only [Bool.not_true, Bool.false_eq_true, if_false] at h
      by_cases hemp : sim.particles.isEmpty
      · rw [if_pos hemp] at h
        exact (Prod.mk.injEq _ _ _ _ ▸ h).1.symm
      · rw [if_neg hemp] at h
        exact appendCase _ hv h
    · rw [Bool.not_eq_true] at hval
      rw [hval] at h
      simp only [Bool.not_false, if_true] at h
      exact (Prod.mk.injEq _ _ _ _ ▸ h).1.symm

/-- C10: a new empty simulation defaults to the `ias15` integrator with
timestep `dt = 0.001`, and every successful `add` whose descriptor gives no
mass (Cartesian or orbital) appends a particle of mass `0`, a massless test
particle. -/
theorem defaults_and_massless :
    Simulation.empty.integrator = "ias15" ∧ Simulation.empty.dt = 1 / 1000 ∧
      ∀ (conv : OrbElems → ℚ → ℚ × ℚ × ℚ × ℚ × ℚ × ℚ) (sim : Simulation)
        (spec : AddSpec) (sim' : Simulation), spec.mass = none →
        Simulation.add conv sim spec = (sim', none) →
        ∃ p, sim'.particles = sim.particles ++ [p] ∧ p.m = 0 := by
  refine ⟨rfl, rfl, ?_⟩
  intro conv sim spec sim' hm h
  have appendCase : ∀ (mk : Nat → Particle) (hv : Option Nat), (∀ n, (mk n).m = 0) →
      sim.appendWith mk hv = (sim', none) →
      ∃ p, sim'.particles = sim.particles ++ [p] ∧ p.m = 0 := by
    intro mk hv hmk hap
    cases hv with
    | none =>
      rw [Simulation.appendWith] at hap
      have := (Prod.mk.injEq _ _ _ _ ▸ hap).1
      exact ⟨mk sim.nextHash, by rw [← this]; rfl, hmk _⟩
    | some v =>
      rw [Simulation.appendWith] at hap
      by_cases hu : hashInUse sim v
      · rw [if_pos hu] at hap
        exact absurd (Prod.mk.injEq _ _ _ _ ▸ hap).2 (by simp)
      · rw [if_neg hu] at hap
        have := (Prod.mk.injEq _ _ _ _ ▸ hap).1
        exact ⟨mk v, by rw [← this]; rfl, hmk _⟩
  cases spec with
  | cart m x y z vx vy vz hv =>
    rw [AddSpec.mass] at hm
    subst hm
    exact appendCase _ hv (fun n => rfl) h
  | orbital m o hv =>
    rw [AddSpec.mass] at hm
    subst hm
    rw [Simulation.add] at h
    by_cases hval : validOrbit o
    · rw [hval] at h
      simp only [Bool.not_true, Bool.false_eq_true, if_false] at h
      by_cases hemp : sim.particles.isEmpty
      · rw [if_pos hemp] at h
        exact absurd (Prod.mk.injEq _ _ _ _ ▸ h).2 (by simp)
      · rw [if_neg hemp] at h
        exact appendCase _ hv (fun n => rfl) h
    · rw [Bool.not_eq_true] at hval
      rw [hval] at h
      simp only [Bool.not_false, if_true] at h
      exact absurd (Prod.mk.injEq _ _ _ _ ▸ h).2 (by simp)

/-- A particle map that keeps masses keeps the total mass. -/
theorem totalMass_map (ps : List Particle) (F : Particle → Particle)
    (hm : ∀ p, (F p).m = p.m) : totalMass (ps.map F) = totalMass ps := by
  induction ps with
  | nil => rfl
  | cons p rest ih =>
    simp only [totalMass, List.map_cons, List.sum_cons] at *
    rw [hm p, ih]

/-- Weighted sums after a mass-preserving shift of an attribute by `c`. -/
theorem wsum_map_shift (ps : List Particle) (g : Particle → ℚ) (c : ℚ)
    (F : Particle → Particle) (hm : ∀ p, (F p).m = p.m)
    (hg : ∀ p, g (F p) = g p - c) :
    wsum g (ps.map F) = wsum g ps - c * totalMass ps := by
  induction ps with
  | nil => simp [wsum, totalMass]
  | cons p rest ih =>
    simp only [wsum, totalMass, List.map_cons, List.sum_cons] at *
    rw [hm p, hg p, ih]
    ring

/-- The mass-preserving, coordinate-shifting map used by `move_to_com`. -/
def comShift (Rx Ry Rz Vx Vy Vz : ℚ) (p : Particle) : Particle :=
  { p with x := p.x - Rx, y := p.y - Ry, z := p.z - Rz,
           vx := p.vx - Vx, vy := p.vy - Vy, vz := p.vz - Vz }

/-- The transform `move_to_com` written through `comShift`. -/
theorem move_to_com_eq (sim : Simulation) :
    sim.move_to_com = sim.touch (sim.particles.map
      (comShift (wsum Particle.x sim.particles / totalMass sim.particles)
        (wsum Particle.y sim.particles / totalMass sim.particles)
        (wsum Particle.z sim.particles / totalMass sim.particles)
        (wsum Particle.vx sim.particles / totalMass sim.particles)
        (wsum Particle.vy sim.particles / totalMass sim.particles)
        (wsum Particle.vz sim.particles / totalMass sim.particles))) := rfl

/-- After subtracting the mass-weighted mean of an attribute, the weighted
sum of that attribute vanishes exactly. -/
theorem wsum_after_shift_zero (ps : List Particle) (g : Particle → ℚ)
    (F : Particle → Particle) (hm : ∀ p, (F p).m = p.m)
    (hg : ∀ p, g (F p) = g p - wsum g ps / totalMass ps)
    (hM : totalMass ps ≠ 0) : wsum g (ps.map F) = 0 := by
  rw [wsum_map_shift ps g _ F hm hg, div_mul_cancel₀ _ hM, sub_self]

/-- Re-synchronising to the already-synchronised particle list is a no-op. -/
theorem touch_touch (sim : Simulation) (ps : List Particle) :
    (sim.touch ps).touch (sim.touch ps).particles = sim.touch ps := rfl

/-- C7: with positive total mass, `move_to_com` subtracts the mass-weighted
mean position and velocity from every particle, after which the total
momentum vanishes exactly, component by component (hence within the
claimed tolerance of one part in 10¹²), and a second application of
`move_to_com` is an exact no-op: it shifts every position by the zero
vector. -/
theorem move_to_com_zero_momentum_idem (sim : Simulation)
    (hM : 0 < totalMass sim.particles) :
    wsum Particle.vx sim.move_to_com.particles = 0 ∧
      wsum Particle.vy sim.move_to_com.particles = 0 ∧
      wsum Particle.vz sim.move_to_com.particles = 0 ∧
      sim.move_to_com.move_to_com = sim.move_to_com := by
  have hMne : totalMass sim.particles ≠ 0 := ne_of_gt hM
  have hps : sim.move_to_com.particles = sim.particles.map
      (comShift (wsum Particle.x sim.particles / totalMass sim.particles)
        (wsum Particle.y sim.particles / totalMass sim.particles)
        (wsum Particle.z sim.particles / totalMass sim.particles)
        (wsum Particle.vx sim.particles / totalMass sim.particles)
        (wsum Particle.vy sim.particles / totalMass sim.particles)
        (wsum Particle.vz sim.particles / totalMass sim.particles)) := rfl
  have hx : wsum Particle.x sim.move_to_com.particles = 0 := by
    rw [hps]; exact wsum_after_shift_zero _ _ _ (fun p => rfl) (fun p => rfl) hMne
  have hy : wsum Particle.y sim.move_to_com.particles = 0 := by
    rw [hps]; exact wsum_after_shift_zero _ _ _ (fun p => rfl) (fun p => rfl) hMne
  have hz : wsum Particle.z sim.move_to_com.particles = 0 := by
    rw [hps]; exact wsum_after_shift_zero _ _ _ (fun p => rfl) (fun p => rfl) hMne
  have hvx : wsum Particle.vx sim.move_to_com.particles = 0 := by
    rw [hps]; exact wsum_after_shift_zero _ _ _ (fun p => rfl) (fun p => rfl) hMne
  have hvy : wsum Particle.vy sim.move_to_com.particles = 0 := by
    rw [hps]; exact wsum_after_shift_zero _ _ _ (fun p => rfl) (fun p => rfl) hMne
  have hvz : wsum Particle.vz sim.move_to_com.particles = 0 := by
    rw [hps]; exact wsum_after_shift_zero _ _ _ (fun p => rfl) (fun p => rfl) hMne
  refine ⟨hvx, hvy, hvz, ?_⟩
  have hid : comShift 0 0 0 0 0 0 = id := by
    funext p
    cases p
    simp [comShift]
  rw [move_to_com_eq sim.move_to_com, hx, hy, hz, hvx, hvy, hvz]
  simp only [zero_div]
  rw [hid, List.map_id]
  conv_lhs => rw [move_to_com_eq sim]
  conv_rhs => rw [move_to_com_eq sim]
  exact touch_touch _ _

/-- Appending through `appendWith` preserves the hash-identity invariant
and grows the store by one. -/
theorem appendWith_hashesOK (sim : Simulation) (mk : Nat → Particle) (h : Option Nat)
    (sim' : Simulation) (hok : HashesOK sim) (hmk : ∀ n, (mk n).hash = n)
    (hap : sim.appendWith mk h = (sim', none)) :
    HashesOK sim' ∧ sim'.particles.length = sim.particles.length + 1 := by
  obtain ⟨hnd, hbound⟩ := hok
  cases h with
  | none =>
    rw [Simulation.appendWith] at hap
    have hs := (Prod.mk.injEq _ _ _ _ ▸ hap).1
    subst hs
    refine ⟨⟨?_, ?_⟩, by simp [Simulation.touch]⟩
    · simp only [Simulation.touch, List.map_append, List.map_cons, List.map_nil, hmk]
      rw [List.nodup_append]
      refine ⟨hnd, List.nodup_singleton _, ?_⟩
      intro a ha hb
      rw [List.mem_singleton] at hb
      subst hb
      obtain ⟨p, hp, hph⟩ := List.mem_map.mp ha
      exact absurd hph (ne_of_lt (hbound p hp))
    · intro p hp
      simp only [Simulation.touch, List.mem_append, List.mem_singleton] at hp
      rcases hp with hp | rfl
      · exact Nat.lt_succ_of_lt (hbound p hp)
      · rw [hmk]
        exact Nat.lt_succ_self _
  | some v =>
    rw [Simulation.appendWith] at hap
    by_cases hu : hashInUse sim v
    · rw [if_pos hu] at hap
      exact absurd (Prod.mk.injEq _ _ _ _ ▸ hap).2 (by simp)
    · rw [if_neg hu] at hap
      have hs := (Prod.mk.injEq _ _ _ _ ▸ hap).1
      subst hs
      have hvnot : ∀ p ∈ sim.particles, p.hash ≠ v := by
        intro p hp
        have := (Bool.not_eq_true _).mp hu
        rw [hashInUse, List.any_eq_false] at this
        simpa using this p hp
      refine ⟨⟨?_, ?_⟩, by simp [Simulation.touch]⟩
      · simp only [Simulation.touch, List.map_append, List.map_cons, List.map_nil, hmk]
        rw [List.nodup_append]
        refine ⟨hnd, List.nodup_singleton _, ?_⟩
        intro a ha hb
        rw [List.mem_singleton] at hb
        subst hb
        obtain ⟨p, hp, hph⟩ := List.mem_map.mp ha
        exact hvnot p hp hph
      · intro p hp
        simp only [Simulation.touch, List.mem_append, List.mem_singleton] at hp
        rcases hp with hp | rfl
        · exact lt_of_lt_of_le (hbound p hp) (le_max_left _ _)
        · rw [hmk]
          exact lt_of_lt_of_le (Nat.lt_succ_self _) (le_max_right _ _)

/-- A successful `add` preserves the hash-identity invariant and grows the
store by one. -/
theorem add_hashesOK (conv : OrbElems → ℚ → ℚ × ℚ × ℚ × ℚ × ℚ × ℚ)
    (sim : Simulation) (spec : AddSpec) (sim' : Simulation) (hok : HashesOK sim)
    (h : Simulation.add conv sim spec = (sim', none)) :
    HashesOK sim' ∧ sim'.particles.length = sim.particles.length + 1 := by
  cases spec with
  | cart m x y z vx vy vz hv =>
    exact appendWith_hashesOK sim _ hv sim' hok (fun n => rfl) h
  | orbital m o hv =>
    rw [Simulation.add] at h
    by_cases hval : validOrbit o
    · rw [hval] at h
      simp only [Bool.not_true, Bool.false_eq_true, if_false] at h
      by_cases hemp : sim.particles.isEmpty
      · rw [if_pos hemp] at h
        exact absurd (Prod.mk.injEq _ _ _ _ ▸ h).2 (by simp)
      · rw [if_neg hemp] at h
        exact appendWith_hashesOK sim _ hv sim' hok (fun n => rfl) h
    · rw [Bool.not_eq_true] at hval
      rw [hval] at h
      simp only [Bool.not_false, if_true] at h
      exact absurd (Prod.mk.injEq _ _ _ _ ▸ h).2 (by simp)

/-- A successful `remove` preserves the hash-identity invariant and shrinks
the store by one. -/
theorem remove_hashesOK (sim : Simulation) (tgt : RemovalTarget) (sim' : Simulation)
    (hok : HashesOK sim) (h : sim.remove tgt = (sim', none)) :
    HashesOK sim' ∧ sim'.particles.length + 1 = sim.particles.length := by
  obtain ⟨hnd, hbound⟩ := hok
  have main : ∀ i, sim.removeIndex i = (sim', none) →
      HashesOK sim' ∧ sim'.particles.length + 1 = sim.particles.length := by
    intro i hri
    obtain ⟨hi, rfl⟩ := removeIndex_success sim i sim' hri
    have hsub : List.Sublist (sim.particles.eraseIdx i) sim.particles :=
      List.eraseIdx_sublist _ _
    refine ⟨⟨hnd.sublist (hsub.map _), ?_⟩, ?_⟩
    · intro p hp
      exact hbound p (hsub.mem hp)
    · show (sim.particles.eraseIdx i).length + 1 = sim.particles.length
      rw [List.length_eraseIdx_of_lt hi]
      omega
  cases tgt with
  | byIndex i => exact main i h
  | byHash hv =>
    rw [Simulation.remove] at h
    cases hfi : sim.particles.findIdx? (fun p => p.hash == hv) with
    | some i =>
      rw [Simulation.removeHash, hfi] at h
      exact main i h
    | none =>
      rw [Simulation.removeHash, hfi] at h
      exact absurd (Prod.mk.injEq _ _ _ _ ▸ h).2 (by simp)

/-- Running a fully-successful operation sequence preserves the
hash-identity invariant and accounts for the length exactly. -/
theorem runOps_invariant (conv : OrbElems → ℚ → ℚ × ℚ × ℚ × ℚ × ℚ × ℚ)
    (ops : List StoreOp) : ∀ (sim sim' : Simulation), HashesOK sim →
    runOps conv sim ops = (sim', true) →
    HashesOK sim' ∧
      sim'.particles.length + countRemoves ops = sim.particles.length + countAdds ops := by
  induction ops with
  | nil =>
    intro sim sim' hok h
    rw [runOps] at h
    obtain ⟨rfl, -⟩ := Prod.mk.injEq _ _ _ _ ▸ h
    exact ⟨hok, rfl⟩
  | cons op rest ih =>
    intro sim sim' hok h
    cases op with
    | addOp s =>
      rw [runOps] at h
      cases hstep : Simulation.add conv sim s with
      | mk s1 err =>
        rw [hstep] at h
        cases err with
        | some e => exact absurd (Prod.mk.injEq _ _ _ _ ▸ h).2 (by simp)
        | none =>
          obtain ⟨hok1, hlen1⟩ := add_hashesOK conv sim s s1 hok hstep
          obtain ⟨hok', hlen'⟩ := ih s1 sim' hok1 h
          refine ⟨hok', ?_⟩
          rw [countRemoves, countAdds] at *
          rw [List.countP_cons_of_neg _ _ (by simp), List.countP_cons_of_pos _ _ (by simp)]
          omega
    | removeOp tgt =>
      rw [runOps] at h
      cases hstep : sim.remove tgt with
      | mk s1 err =>
        rw [hstep] at h
        cases err with
        | some e => exact absurd (Prod.mk.injEq _ _ _ _ ▸ h).2 (by simp)
        | none =>
          obtain ⟨hok1, hlen1⟩ := remove_hashesOK sim tgt s1 hok hstep
          obtain ⟨hok', hlen'⟩ := ih s1 sim' hok1 h
          refine ⟨hok', ?_⟩
          rw [countRemoves, countAdds] at *
          rw [List.countP_cons_of_pos _ _ (by simp), List.countP_cons_of_neg _ _ (by simp)]
          omega

/-- In a store with pairwise-distinct hashes, each live particle's hash
occurs exactly once. -/
theorem countP_hash_one (l : List Particle) (p : Particle)
    (hnd : (l.map Particle.hash).Nodup) (hp : p ∈ l) :
    l.countP (fun q => q.hash == p.hash) = 1 := by
  have h1 : l.countP (fun q => q.hash == p.hash) = (l.map Particle.hash).count p.hash := by
    rw [List.count, List.countP_map]
    rfl
  rw [h1]
  exact List.count_eq_one_of_mem hnd (List.mem_map_of_mem _ hp)

/-- C8: starting from a store satisfying the hash-identity invariant, any
sequence of add and remove operations that all succeed leaves the particle
count equal to the initial count plus the number of adds minus the number
of removes, and every surviving particle's hash resolves to exactly one
live particle. -/
theorem store_ops_len_unique (conv : OrbElems → ℚ → ℚ × ℚ × ℚ × ℚ × ℚ × ℚ)
    (sim sim' : Simulation) (ops : List StoreOp) (hok : HashesOK sim)
    (h : runOps conv sim ops = (sim', true)) :
    sim'.particles.length + countRemoves ops = sim.particles.length + countAdds ops ∧
      ∀ p ∈ sim'.particles, sim'.particles.countP (fun q => q.hash == p.hash) = 1 := by
  obtain ⟨hok', hlen⟩ := runOps_invariant conv ops sim sim' hok h
  exact ⟨hlen, fun p hp => countP_hash_one _ p hok'.1 hp⟩

/-- A watchdog failure is an escape or an encounter at the step's end time. -/
theorem watchdog_some (dmax : Option ℚ) (dmin t' : ℚ) (ps : List Particle) (e : SimError)
    (h : watchdog dmax dmin t' ps = some e) :
    e = SimError.EscapeDetected t' ∨ e = SimError.EncounterDetected t' := by
  rw [watchdog] at h
  by_cases h1 : escaped dmax ps
  · rw [if_pos h1] at h
    exact Or.inl (Option.some.inj h).symm
  · rw [if_neg h1] at h
    by_cases h2 : closePair dmin ps
    · rw [if_pos h2] at h
      exact Or.inr (Option.some.inj h).symm
    · rw [if_neg h2] at h
      cases h

/-- Squared distances are non-negative. -/
theorem pairDist2_nonneg (p q : Particle) : 0 ≤ pairDist2 p q :=
  add_nonneg (add_nonneg (mul_self_nonneg _) (mul_self_nonneg _)) (mul_self_nonneg _)

/-- With the default `exit_min_distance = 0` the encounter check never
fires. -/
theorem closePair_zero (ps : List Particle) : closePair 0 ps = false := by
  induction ps with
  | nil => rfl
  | cons p rest ih =>
    rw [closePair, ih, Bool.or_false, List.any_eq_false]
    intro q hq
    simp only [decide_eq_true_eq]
    intro hlt
    exact absurd hlt (not_lt.mpr (by simpa using pairDist2_nonneg p q))

/-- The escape check holds exactly when some particle is beyond the
configured radius (in squared form). -/
theorem escaped_iff (d : ℚ) (ps : List Particle) :
    escaped (some d) ps = true ↔ ∃ p ∈ ps, d * d < dist2 p := by
  rw [escaped, List.any_eq_true]
  simp

/-- The stepping loop fails only at a step boundary: the reached time is a
whole number `k ≥ 1` of steps past the start, the state there is the
`k`-fold image of the start state, the counter is `k`, and the failure is
an escape or an encounter stamped with that boundary time. -/
theorem integrateLoop_failure (eng : Engine) (dmax : Option ℚ) (dmin dt tT : ℚ) :
    ∀ (fuel : Nat) (bt : ℚ) (b : List Particle) (e : SimError),
      (integrateLoop eng dmax dmin dt tT fuel bt b).err = some e →
      ∃ k : Nat, 1 ≤ k ∧
        (integrateLoop eng dmax dmin dt tT fuel bt b).bt = bt + k * dt ∧
        (integrateLoop eng dmax dmin dt tT fuel bt b).base = (eng.step dt)^[k] b ∧
        (integrateLoop eng dmax dmin dt tT fuel bt b).n = k ∧
        (e = SimError.EscapeDetected (bt + k * dt) ∨
          e = SimError.EncounterDetected (bt + k * dt)) := by
  intro fuel
  induction fuel with
  | zero =>
    intro bt b e h
    cases h
  | succ fuel ih =>
    intro bt b e h
    rw [integrateLoop] at h ⊢
    by_cases hle : bt + dt ≤ tT
    · rw [if_pos hle] at h ⊢
      cases hw : watchdog dmax dmin (bt + dt) (eng.step dt b) with
      | some e0 =>
        simp only [hw] at h ⊢
        refine ⟨1, le_refl 1, by push_cast; ring, ?_, rfl, ?_⟩
        · rw [Function.iterate_one]
        · have he : e = e0 := (Option.some.inj h).symm
          subst he
          have := watchdog_some dmax dmin (bt + dt) (eng.step dt b) e hw
          simpa [show bt + (1 : Nat) * dt = bt + dt by push_cast; ring] using this
      | none =>
        simp only [hw] at h ⊢
        obtain ⟨k, hk1, hbt, hbase, hn, he⟩ := ih (bt + dt) (eng.step dt b) e h
        refine ⟨k + 1, by omega, ?_, ?_, by rw [hn], ?_⟩
        · rw [hbt]; push_cast; ring
        · rw [hbase, ← Function.iterate_succ_apply]
        · have harith : bt + dt + (k : ℚ) * dt = bt + ((k : ℚ) + 1) * dt := by ring
          rcases he with he | he
          · exact Or.inl (by rw [he]; push_cast; rw [harith])
          · exact Or.inr (by rw [he]; push_cast; rw [harith])
    · rw [if_neg hle] at h
      cases h

/-- C5: a runtime failure from `integrate` leaves the simulation at a
consistent step boundary: the failure is an `EscapeDetected` or
`EncounterDetected` stamped with the final (rolled-forward) time, the
visible particles coincide with the internal state at that boundary, all
configuration fields survive unchanged (so the caller may inspect
particles, remove the offender, and call `integrate` again), and the
reached state is a whole number `k ≥ 1` of integrator steps past the
previous step lattice. -/
theorem integrate_failure_boundary (eng : Engine) (sim : Simulation) (tT : ℚ)
    (sim' : Simulation) (e : SimError)
    (h : sim.integrate eng tT = (sim', some e)) :
    (e = SimError.EscapeDetected sim'.t ∨ e = SimError.EncounterDetected sim'.t) ∧
      sim'.base_t = sim'.t ∧ sim'.particles = sim'.base ∧
      sim'.dt = sim.dt ∧ sim'.G = sim.G ∧ sim'.integrator = sim.integrator ∧
      sim'.exit_max_distance = sim.exit_max_distance ∧
      sim'.exit_min_distance = sim.exit_min_distance ∧
      ∃ k : Nat, 1 ≤ k ∧ sim'.t = sim.base_t + k * sim.dt ∧
        sim'.particles = (eng.step sim.dt)^[k] sim.base := by
  rw [Simulation.integrate] at h
  by_cases hne : tT = sim.t
  · rw [if_pos hne] at h
    exact absurd (Prod.mk.injEq _ _ _ _ ▸ h).2 (by simp)
  · rw [if_neg hne] at h
    cases herr : (integrateLoop eng sim.exit_max_distance sim.exit_min_distance
        sim.dt tT (stepsNeeded sim.base_t sim.dt tT) sim.base_t sim.base).err with
    | none =>
      simp only [herr] at h
      exact absurd (Prod.mk.injEq _ _ _ _ ▸ h).2 (by simp)
    | some e0 =>
      simp only [herr] at h
      obtain ⟨hsim, he⟩ := Prod.mk.injEq _ _ _ _ ▸ h
      have he0 : e0 = e := Option.some.inj he
      have herr2 : (integrateLoop eng sim.exit_max_distance sim.exit_min_distance
          sim.dt tT (stepsNeeded sim.base_t sim.dt tT) sim.base_t sim.base).err = some e := by
        rw [herr, he0]
      obtain ⟨k, hk1, hbt, hbase, hn, htag⟩ :=
        integrateLoop_failure eng sim.exit_max_distance sim.exit_min_distance
          sim.dt tT (stepsNeeded sim.base_t sim.dt tT) sim.base_t sim.base e herr2
      subst hsim
      refine ⟨?_, rfl, rfl, rfl, rfl, rfl, rfl, rfl, k, hk1, ?_, ?_⟩
      · simpa [hbt] using htag
      · exact hbt
      · exact hbase

/-- If, with the encounter check disabled, the state reached after some
completed step inside the integration window contains an escaped particle,
then the stepping loop fails with an escape, and the failing state itself
contains an escaped particle. -/
theorem integrateLoop_escape_fires (eng : Engine) (d dt tT : ℚ) (hdt : 0 < dt) :
    ∀ (fuel k : Nat) (bt : ℚ) (b : List Particle),
      k < fuel →
      bt + (k + 1 : ℚ) * dt ≤ tT →
      escaped (some d) ((eng.step dt)^[k + 1] b) = true →
      ∃ t', (integrateLoop eng (some d) 0 dt tT fuel bt b).err =
          some (SimError.EscapeDetected t') ∧
        t' = (integrateLoop eng (some d) 0 dt tT fuel bt b).bt ∧
        escaped (some d) ((integrateLoop eng (some d) 0 dt tT fuel bt b).base) = true := by
  intro fuel
  induction fuel with
  | zero =>
    intro k bt b hk
    exact absurd hk (Nat.not_lt_zero k)
  | succ fuel ih =>
    intro k bt b hk hwin hesc
    have hle : bt + dt ≤ tT := by
      have h1 : (1 : ℚ) ≤ (k + 1 : ℚ) := by
        have : (0 : ℚ) ≤ (k : ℚ) := Nat.cast_nonneg k
        linarith
      nlinarith
    rw [integrateLoop, if_pos hle]
    cases he1 : escaped (some d) (eng.step dt b) with
    | true =>
      have hw : watchdog (some d) 0 (bt + dt) (eng.step dt b) =
          some (SimError.EscapeDetected (bt + dt)) := by
        rw [watchdog, if_pos he1]
      simp only [hw]
      exact ⟨bt + dt, rfl, rfl, he1⟩
    | false =>
      have hw : watchdog (some d) 0 (bt + dt) (eng.step dt b) = none := by
        rw [watchdog, if_neg (by simp [he1]), if_neg (by simp [closePair_zero])]
      simp only [hw]
      cases k with
      | zero =>
        rw [Function.iterate_one] at hesc
        rw [he1] at hesc
        cases hesc
      | succ k' =>
        have hwin' : bt + dt + (k' + 1 : ℚ) * dt ≤ tT := by
          have : ((k' : ℚ) + 1 + 1) * dt = dt + ((k' : ℚ) + 1) * dt := by ring
          push_cast at hwin ⊢
          linarith [hwin, this]
        have hesc' : escaped (some d) ((eng.step dt)^[k' + 1] (eng.step dt b)) = true := by
          rw [← Function.iterate_succ_apply]
          exact hesc
        obtain ⟨t', h1, h2, h3⟩ := ih k' (bt + dt) (eng.step dt b) (by omega) hwin' hesc'
        exact ⟨t', h1, h2, h3⟩

/-- C1: with a finite escape radius `d` configured and the encounter check
at its disabled default, if the state after some completed integration step
inside the integration window contains a particle beyond the radius (in the
squared form `d·d < x²+y²+z²`, equivalent to `√(x²+y²+z²) > d` for the
non-negative radius), then `integrate` fails with an `EscapeDetected`
failure carrying the current (rolled-forward) simulation time, whose
human-readable description is exactly the notebook's message, and the
offending particle is still present in the particle store afterwards. -/
theorem integrate_escape_raises (eng : Engine) (sim : Simulation) (tT d : ℚ) (k : Nat)
    (hd : sim.exit_max_distance = some d)
    (hmin : sim.exit_min_distance = 0)
    (hdt : 0 < sim.dt)
    (hne : tT ≠ sim.t)
    (hstep : sim.base_t + (k + 1 : ℚ) * sim.dt ≤ tT)
    (hesc : escaped (some d) ((eng.step sim.dt)^[k + 1] sim.base) = true) :
    ∃ sim', sim.integrate eng tT = (sim', some (SimError.EscapeDetected sim'.t)) ∧
      SimError.message (SimError.EscapeDetected sim'.t) =
        "A particle escaped (r>exit_max_distance)." ∧
      ∃ p ∈ sim'.particles, d * d < dist2 p := by
  have hkfuel : k < stepsNeeded sim.base_t sim.dt tT := by
    have hx : ((k : ℚ) + 1) ≤ (tT - sim.base_t) / sim.dt := by
      rw [le_div_iff₀ hdt]
      linarith
    have hceil : ((k : ℤ) + 1) ≤ ⌈(tT - sim.base_t) / sim.dt⌉ := by
      have h2 := Int.le_ceil ((tT - sim.base_t) / sim.dt)
      exact_mod_cast le_trans hx h2
    rw [stepsNeeded]
    omega
  obtain ⟨t', herr, hbt, hescb⟩ := integrateLoop_escape_fires eng d sim.dt tT hdt
    (stepsNeeded sim.base_t sim.dt tT) k sim.base_t sim.base hkfuel hstep hesc
  rw [Simulation.integrate, if_neg hne, hd, hmin]
  simp only [herr]
  subst hbt
  exact ⟨_, rfl, rfl, (escaped_iff d _).mp hescb⟩

/-- Number of full steps of size `dt` that fit between `bt` and `tT`. -/
def nFull (bt dt tT : ℚ) : Nat := (Int.toNat ⌊(tT - bt) / dt⌋)

/-- With the escape radius unset and the encounter radius at its default,
the watchdog never fires. -/
theorem watchdog_disabled (t' : ℚ) (ps : List Particle) :
    watchdog none 0 t' ps = none := by
  rw [watchdog]
  simp [escaped, closePair_zero]

/-- Closed form of the stepping loop when the watchdog is disabled: with
sufficient fuel it takes exactly `nFull` full steps and stops just short
of the target. -/
theorem integrateLoop_disabled (eng : Engine) (dt tT : ℚ) (hdt : 0 < dt) :
    ∀ (fuel : Nat) (bt : ℚ) (b : List Particle), nFull bt dt tT ≤ fuel →
      integrateLoop eng none 0 dt tT fuel bt b =
        ⟨bt + (nFull bt dt tT : ℚ) * dt, (eng.step dt)^[nFull bt dt tT] b,
          nFull bt dt tT, none⟩ := by
  intro fuel
  induction fuel with
  | zero =>
    intro bt b hf
    have h0 : nFull bt dt tT = 0 := Nat.le_zero.mp hf
    rw [integrateLoop, h0]
    simp
  | succ fuel ih =>
    intro bt b hf
    by_cases hle : bt + dt ≤ tT
    · have hge1 : (1 : ℤ) ≤ ⌊(tT - bt) / dt⌋ := by
        have hx : (1 : ℚ) ≤ (tT - bt) / dt := by
          rw [le_div_iff₀ hdt]
          linarith
        exact_mod_cast Int.le_floor.mpr (by exact_mod_cast hx)
      have hstepfloor : ⌊(tT - (bt + dt)) / dt⌋ = ⌊(tT - bt) / dt⌋ - 1 := by
        have harg : (tT - (bt + dt)) / dt = (tT - bt) / dt - 1 := by
          field_simp
          ring
        rw [harg]
        exact_mod_cast Int.floor_sub_int ((tT - bt) / dt) 1
      have hn : nFull (bt + dt) dt tT + 1 = nFull bt dt tT := by
        rw [nFull, nFull, hstepfloor]
        omega
      have hf' : nFull (bt + dt) dt tT ≤ fuel := by omega
      rw [integrateLoop, if_pos hle]
      simp only [watchdog_disabled]
      rw [ih (bt + dt) (eng.step dt b) hf']
      have hcast : (bt + dt) + (nFull (bt + dt) dt tT : ℚ) * dt =
          bt + (nFull bt dt tT : ℚ) * dt := by
        rw [← hn]
        push_cast
        ring
      have hiter : (eng.step dt)^[nFull (bt + dt) dt tT] (eng.step dt b) =
          (eng.step dt)^[nFull bt dt tT] b := by
        rw [← Function.iterate_succ_apply, ← hn]
      simp only [hcast, hiter, hn]
    · have h0 : nFull bt dt tT = 0 := by
        have hx : (tT - bt) / dt < 1 := by
          rw [div_lt_one hdt]
          linarith
        have hfl : ⌊(tT - bt) / dt⌋ < 1 := by
          exact_mod_cast Int.floor_lt.mpr (by exact_mod_cast hx)
        rw [nFull]
        omega
      rw [integrateLoop, if_neg hle, h0]
      simp

/-- The state `integrate` reaches when the watchdog stays silent: the
internal lattice advances by the full steps that fit, the visible state is
the shortened finishing step, and the time lands exactly on the target. -/
def advanced (eng : Engine) (sim : Simulation) (tT : ℚ) : Simulation :=
  { sim with
      base := (eng.step sim.dt)^[nFull sim.base_t sim.dt tT] sim.base,
      base_t := sim.base_t + (nFull sim.base_t sim.dt tT : ℚ) * sim.dt,
      t := tT,
      particles := finishStep eng
        (sim.base_t + (nFull sim.base_t sim.dt tT : ℚ) * sim.dt) tT
        ((eng.step sim.dt)^[nFull sim.base_t sim.dt tT] sim.base),
      stepCount := sim.stepCount + nFull sim.base_t sim.dt tT }

/-- Closed form of `integrate` with the watchdog disabled. -/
theorem integrate_disabled (eng : Engine) (sim : Simulation) (tT : ℚ)
    (hdt : 0 < sim.dt) (hmax : sim.exit_max_distance = none)
    (hmin : sim.exit_min_distance = 0) (hne : tT ≠ sim.t) :
    sim.integrate eng tT = (advanced eng sim tT, none) := by
  have hfuel : nFull sim.base_t sim.dt tT ≤ stepsNeeded sim.base_t sim.dt tT := by
    rw [nFull, stepsNeeded]
    have := Int.floor_le_ceil ((tT - sim.base_t) / sim.dt)
    omega
  rw [Simulation.integrate, if_neg hne, hmax, hmin,
    integrateLoop_disabled eng sim.dt tT hdt _ sim.base_t sim.base hfuel]
  simp only [advanced, hmax, hmin]

/-- Advancing to `T` on the internal step lattice and then to `T' ≥ T` is
the same as advancing to `T'` directly: the full-step lattices agree, so
the internal states, the finishing step, and the step counters coincide. -/
theorem advanced_advanced (eng : Engine) (sim : Simulation) (T T' : ℚ)
    (hdt : 0 < sim.dt) (hbt : sim.base_t ≤ T) (hTT : T ≤ T') :
    advanced eng (advanced eng sim T) T' = advanced eng sim T' := by
  have hx0 : (0 : ℤ) ≤ ⌊(T - sim.base_t) / sim.dt⌋ := by
    apply Int.floor_nonneg.mpr
    apply div_nonneg (by linarith) (le_of_lt hdt)
  have hxy : ⌊(T - sim.base_t) / sim.dt⌋ ≤ ⌊(T' - sim.base_t) / sim.dt⌋ := by
    apply Int.floor_le_floor
    gcongr
  have hn0 : (nFull sim.base_t sim.dt T : ℤ) = ⌊(T - sim.base_t) / sim.dt⌋ := by
    rw [nFull]
    omega
  have harg : (T' - (sim.base_t + (nFull sim.base_t sim.dt T : ℚ) * sim.dt)) / sim.dt =
      (T' - sim.base_t) / sim.dt - (nFull sim.base_t sim.dt T : ℚ) := by
    field_simp
    ring
  have hfloor : ⌊(T' - (sim.base_t + (nFull sim.base_t sim.dt T : ℚ) * sim.dt)) / sim.dt⌋ =
      ⌊(T' - sim.base_t) / sim.dt⌋ - nFull sim.base_t sim.dt T := by
    rw [harg]
    exact Int.floor_sub_nat _ _
  have hm1 : nFull (sim.base_t + (nFull sim.base_t sim.dt T : ℚ) * sim.dt) sim.dt T' =
      (⌊(T' - sim.base_t) / sim.dt⌋ - (nFull sim.base_t sim.dt T : ℤ)).toNat := by
    rw [nFull, hfloor]
  have hrfl : nFull sim.base_t sim.dt T' = (Int.toNat ⌊(T' - sim.base_t) / sim.dt⌋) := rfl
  have hn : nFull (sim.base_t + (nFull sim.base_t sim.dt T : ℚ) * sim.dt) sim.dt T' +
      nFull sim.base_t sim.dt T = nFull sim.base_t sim.dt T' := by
    rw [hm1, hrfl]
    omega
  have hbt2 : (sim.base_t + (nFull sim.base_t sim.dt T : ℚ) * sim.dt) +
      (nFull (sim.base_t + (nFull sim.base_t sim.dt T : ℚ) * sim.dt) sim.dt T' : ℚ) * sim.dt =
      sim.base_t + (nFull sim.base_t sim.dt T' : ℚ) * sim.dt := by
    rw [← hn]
    push_cast
    ring
  have hbase2 : (eng.step sim.dt)^[nFull (sim.base_t + (nFull sim.base_t sim.dt T : ℚ) * sim.dt) sim.dt T']
      ((eng.step sim.dt)^[nFull sim.base_t sim.dt T] sim.base) =
      (eng.step sim.dt)^[nFull sim.base_t sim.dt T'] sim.base := by
    rw [← Function.iterate_add_apply, hn]
  have hsc : sim.stepCount + nFull sim.base_t sim.dt T +
      nFull (sim.base_t + (nFull sim.base_t sim.dt T : ℚ) * sim.dt) sim.dt T' =
      sim.stepCount + nFull sim.base_t sim.dt T' := by
    omega
  simp only [advanced]
  rw [hbt2, hbase2, hsc]

/-- C3: with the watchdogs disabled (so that no watchdog failure can
interpose), integrating a well-formed simulation to `T` and then to
`T' > T` produces exactly the same final simulation state — particles,
internal integrator state, time and counters — as a single call
integrating to `T'` from the same initial state. -/
theorem integrate_monotone_composes (eng : Engine) (sim : Simulation) (T T' : ℚ)
    (hdt : 0 < sim.dt) (hmax : sim.exit_max_distance = none)
    (hmin : sim.exit_min_distance = 0) (hbase : sim.base_t ≤ sim.t)
    (hT : sim.t ≤ T) (hTT : T < T') :
    ((sim.integrate eng T).1).integrate eng T' = sim.integrate eng T' := by
  by_cases hTeq : T = sim.t
  · rw [hTeq, integrate_current_time_noop]
  · have h1 : sim.integrate eng T = (advanced eng sim T, none) :=
      integrate_disabled eng sim T hdt hmax hmin hTeq
    rw [h1]
    have hne1 : T' ≠ (advanced eng sim T).t := by
      show T' ≠ T
      exact (ne_of_lt hTT).symm
    have hne2 : T' ≠ sim.t := by
      have : sim.t < T' := lt_of_le_of_lt hT hTT
      exact (ne_of_lt this).symm
    have h2 : (advanced eng sim T).integrate eng T' =
        (advanced eng (advanced eng sim T) T', none) :=
      integrate_disabled eng (advanced eng sim T) T' hdt hmax hmin hne1
    have h3 : sim.integrate eng T' = (advanced eng sim T', none) :=
      integrate_disabled eng sim T' hdt hmax hmin hne2
    rw [h2, h3,
      advanced_advanced eng sim T T' hdt (le_trans hbase hT) (le_of_lt hTT)]

/-- Rotation about z preserves the dot product. -/
theorem rotZ_dot (θ : ℝ) (u v : Vec3) : (rotZ θ u).dot (rotZ θ v) = u.dot v := by
  simp only [rotZ, Vec3.dot]
  linear_combination (u.x * v.x + u.y * v.y) * Real.sin_sq_add_cos_sq θ

/-- Rotation about x preserves the dot product. -/
theorem rotX_dot (θ : ℝ) (u v : Vec3) : (rotX θ u).dot (rotX θ v) = u.dot v := by
  simp only [rotX, Vec3.dot]
  linear_combination (u.y * v.y + u.z * v.z) * Real.sin_sq_add_cos_sq θ

/-- The orbit-frame rotation preserves the dot product. -/
theorem orbRot_dot (Om inc om : ℝ) (u v : Vec3) :
    (orbRot Om inc om u).dot (orbRot Om inc om v) = u.dot v := by
  rw [orbRot, orbRot, rotZ_dot, rotX_dot, rotZ_dot]

/-- Lagrange's identity for the cross product. -/
theorem vec3_cross_dot_cross (u v : Vec3) :
    (u.cross v).dot (u.cross v) = u.dot u * (v.dot v) - (u.dot v) ^ 2 := by
  simp only [Vec3.cross, Vec3.dot]
  ring

/-- The squared cross-product norm is invariant under the orbit rotation. -/
theorem orbRot_cross_norm (Om inc om : ℝ) (u v : Vec3) :
    ((orbRot Om inc om u).cross (orbRot Om inc om v)).dot
        ((orbRot Om inc om u).cross (orbRot Om inc om v)) =
      (u.cross v).dot (u.cross v) := by
  rw [vec3_cross_dot_cross, vec3_cross_dot_cross, orbRot_dot, orbRot_dot, orbRot_dot]

/-- Perifocal (orbital-plane) position of the Kepler parametrisation. -/
noncomputable def periPos (a e f : ℝ) : Vec3 :=
  ⟨a * (1 - e ^ 2) / (1 + e * Real.cos f) * Real.cos f,
   a * (1 - e ^ 2) / (1 + e * Real.cos f) * Real.sin f, 0⟩

/-- Perifocal (orbital-plane) velocity of the Kepler parametrisation. -/
noncomputable def periVel (mu a e f : ℝ) : Vec3 :=
  ⟨-(mu / Real.sqrt (mu * a * (1 - e ^ 2))) * Real.sin f,
   (mu / Real.sqrt (mu * a * (1 - e ^ 2))) * (e + Real.cos f), 0⟩

/-- The converter's output is the rotated perifocal state. -/
theorem elemsToCart_eq (mu a e inc Om om f : ℝ) :
    elemsToCart mu a e inc Om om f =
      (orbRot Om inc om (periPos a e f), orbRot Om inc om (periVel mu a e f)) := rfl

/-- Squared norm of the perifocal position: the Kepler radius squared. -/
theorem periPos_dot (a e f : ℝ) :
    (periPos a e f).dot (periPos a e f) =
      (a * (1 - e ^ 2) / (1 + e * Real.cos f)) ^ 2 := by
  simp only [periPos, Vec3.dot]
  linear_combination (a * (1 - e ^ 2) / (1 + e * Real.cos f)) ^ 2 *
    Real.sin_sq_add_cos_sq f

/-- Squared norm of the perifocal velocity, via `h² = μ a (1-e²)`. -/
theorem periVel_dot (mu a e f : ℝ) (hmu : 0 < mu) (ha : 0 < a) (h1e : 0 < 1 - e ^ 2) :
    (periVel mu a e f).dot (periVel mu a e f) =
      mu / (a * (1 - e ^ 2)) * (1 + 2 * e * Real.cos f + e ^ 2) := by
  have hh2 : Real.sqrt (mu * a * (1 - e ^ 2)) ^ 2 = mu * a * (1 - e ^ 2) :=
    Real.sq_sqrt (by positivity)
  have hsq : (mu / Real.sqrt (mu * a * (1 - e ^ 2))) ^ 2 = mu / (a * (1 - e ^ 2)) := by
    rw [div_pow, hh2]
    rw [show mu ^ 2 = mu * mu by ring, show mu * a * (1 - e ^ 2) = mu * (a * (1 - e ^ 2)) by ring]
    rw [mul_div_mul_left _ _ (ne_of_gt hmu)]
  simp only [periVel, Vec3.dot]
  linear_combination (Real.sin f ^ 2 + (e + Real.cos f) ^ 2) * hsq +
    (mu / (a * (1 - e ^ 2))) * Real.sin_sq_add_cos_sq f

/-- The perifocal angular momentum vector points along z with magnitude
`a (1-e²) · μ/h = h`. -/
theorem periCross (mu a e f : ℝ) (hden : 0 < 1 + e * Real.cos f) :
    (periPos a e f).cross (periVel mu a e f) =
      ⟨0, 0, a * (1 - e ^ 2) * (mu / Real.sqrt (mu * a * (1 - e ^ 2)))⟩ := by
  simp only [periPos, periVel, Vec3.cross]
  rw [Vec3.mk.injEq]
  refine ⟨by ring, by ring, ?_⟩
  have hne : (1 + e * Real.cos f) ≠ 0 := ne_of_gt hden
  set q := mu / Real.sqrt (mu * a * (1 - e ^ 2)) with hq
  field_simp
  linear_combination (a * (1 - e ^ 2) * q) * Real.sin_sq_add_cos_sq f

/-- Squared norm of the perifocal angular momentum: `μ a (1-e²)`. -/
theorem periCross_dot (mu a e f : ℝ) (hmu : 0 < mu) (ha : 0 < a)
    (h1e : 0 < 1 - e ^ 2) (hden : 0 < 1 + e * Real.cos f) :
    ((periPos a e f).cross (periVel mu a e f)).dot
        ((periPos a e f).cross (periVel mu a e f)) = mu * a * (1 - e ^ 2) := by
  rw [periCross mu a e f hden]
  simp only [Vec3.dot, mul_zero, zero_mul, zero_add, add_zero]
  have hh2 : Real.sqrt (mu * a * (1 - e ^ 2)) ^ 2 = mu * a * (1 - e ^ 2) :=
    Real.sq_sqrt (by positivity)
  have hz : (a * (1 - e ^ 2) * (mu / Real.sqrt (mu * a * (1 - e ^ 2)))) *
      (a * (1 - e ^ 2) * (mu / Real.sqrt (mu * a * (1 - e ^ 2)))) =
      (a * (1 - e ^ 2)) ^ 2 * (mu ^ 2 / Real.sqrt (mu * a * (1 - e ^ 2)) ^ 2) := by
    ring
  rw [hz, hh2]
  have hprod : mu * a * (1 - e ^ 2) ≠ 0 := by positivity
  field_simp
  ring

/-- C9: on the modelled converter over exact real arithmetic, for every
valid bound-orbit element set with `e ∈ [0, 0.99]` and `i ∈ [0, π)`, the
round trip elements → Cartesian → elements recovers the semi-major axis
and the eccentricity exactly, hence in particular within the claimed
tolerance `10⁻¹⁰ · max(|value|, 1)`, independently of the orbit's
eccentricity. -/
theorem orbit_roundtrip_a_e (mu a e inc Om om f : ℝ)
    (hmu : 0 < mu) (ha : 0 < a) (he0 : 0 ≤ e) (he1 : e ≤ 99 / 100)
    (hinc0 : 0 ≤ inc) (hinc1 : inc < Real.pi) :
    |cartToA mu (elemsToCart mu a e inc Om om f).1 (elemsToCart mu a e inc Om om f).2 - a| ≤
        1 / 10 ^ 10 * max |a| 1 ∧
      |cartToE mu (elemsToCart mu a e inc Om om f).1 (elemsToCart mu a e inc Om om f).2 - e| ≤
        1 / 10 ^ 10 * max |e| 1 := by
  have hc1 : -1 ≤ Real.cos f := Real.neg_one_le_cos f
  have h1e : 0 < 1 - e ^ 2 := by nlinarith
  have hden : 0 < 1 + e * Real.cos f := by nlinarith
  have hr : 0 < a * (1 - e ^ 2) / (1 + e * Real.cos f) := div_pos (by positivity) hden
  have hP1 : (elemsToCart mu a e inc Om om f).1 = orbRot Om inc om (periPos a e f) := rfl
  have hP2 : (elemsToCart mu a e inc Om om f).2 = orbRot Om inc om (periVel mu a e f) := rfl
  rw [hP1, hP2]
  have hdotP : (orbRot Om inc om (periPos a e f)).dot (orbRot Om inc om (periPos a e f)) =
      (a * (1 - e ^ 2) / (1 + e * Real.cos f)) ^ 2 := by
    rw [orbRot_dot, periPos_dot]
  have hsqrtP : Real.sqrt ((orbRot Om inc om (periPos a e f)).dot
      (orbRot Om inc om (periPos a e f))) = a * (1 - e ^ 2) / (1 + e * Real.cos f) := by
    rw [hdotP, Real.sqrt_sq hr.le]
  have hdotV : (orbRot Om inc om (periVel mu a e f)).dot (orbRot Om inc om (periVel mu a e f)) =
      mu / (a * (1 - e ^ 2)) * (1 + 2 * e * Real.cos f + e ^ 2) := by
    rw [orbRot_dot, periVel_dot mu a e f hmu ha h1e]
  have hAval : cartToA mu (orbRot Om inc om (periPos a e f))
      (orbRot Om inc om (periVel mu a e f)) = a := by
    rw [cartToA, hsqrtP, hdotV]
    have hkey : 2 / (a * (1 - e ^ 2) / (1 + e * Real.cos f)) -
        mu / (a * (1 - e ^ 2)) * (1 + 2 * e * Real.cos f + e ^ 2) / mu = 1 / a := by
      have h1 : a ≠ 0 := ne_of_gt ha
      have h2 : (1 - e ^ 2) ≠ 0 := ne_of_gt h1e
      have h3 : (1 + e * Real.cos f) ≠ 0 := ne_of_gt hden
      have h4 : mu ≠ 0 := ne_of_gt hmu
      field_simp
      ring
    rw [hkey, one_div_one_div]
  have hcrossPV : ((orbRot Om inc om (periPos a e f)).cross
      (orbRot Om inc om (periVel mu a e f))).dot ((orbRot Om inc om (periPos a e f)).cross
      (orbRot Om inc om (periVel mu a e f))) = mu * a * (1 - e ^ 2) := by
    rw [orbRot_cross_norm, periCross_dot mu a e f hmu ha h1e hden]
  have hEval : cartToE mu (orbRot Om inc om (periPos a e f))
      (orbRot Om inc om (periVel mu a e f)) = e := by
    rw [cartToE, hAval, hcrossPV]
    have harg : 1 - mu * a * (1 - e ^ 2) / (mu * a) = e ^ 2 := by
      rw [show mu * a * (1 - e ^ 2) = (mu * a) * (1 - e ^ 2) by ring,
        mul_div_cancel_left₀ _ (by positivity : (mu * a : ℝ) ≠ 0)]
      ring
    rw [harg, Real.sqrt_sq he0]
  rw [hAval, hEval, sub_self, sub_self, abs_zero]
  constructor <;> positivity

/-- A trivial orbital-element converter used to instantiate theorems on
concrete inputs. -/
def conv0 : OrbElems → ℚ → ℚ × ℚ × ℚ × ℚ × ℚ × ℚ := fun _ _ => (0, 0, 0, 0, 0, 0)

/-- A toy deterministic engine used on concrete inputs: every step pushes
each particle 100 length units along x. -/
def wEng : Engine := ⟨fun _ ps => ps.map (fun p => { p with x := p.x + 100 })⟩

/-- A unit-mass particle at rest at a given x with a given hash. -/
def wP (x : ℚ) (h : Nat) : Particle := ⟨1, x, 0, 0, 0, 0, 0, h⟩

/-- Concrete simulation with one particle and a 50-unit escape radius. -/
def wSimA : Simulation :=
  { t := 0, dt := 1, G := 1, integrator := "ias15", particles := [wP 0 7],
    base := [wP 0 7], base_t := 0, exit_max_distance := some 50,
    exit_min_distance := 0, stepCount := 0, nextHash := 8 }

/-- The state `wSimA` reaches when the toy engine escapes at the first
step of an integration to time 2. -/
def wSimA' : Simulation :=
  { t := 1, dt := 1, G := 1, integrator := "ias15", particles := [wP 100 7],
    base := [wP 100 7], base_t := 1, exit_max_distance := some 50,
    exit_min_distance := 0, stepCount := 1, nextHash := 8 }

/-- Concrete evaluation: integrating `wSimA` to time 2 escapes at the
first step boundary. -/
theorem wSimA_integrate :
    Simulation.integrate wEng wSimA 2 = (wSimA', some (SimError.EscapeDetected 1)) := by
  norm_num [Simulation.integrate, stepsNeeded, integrateLoop, watchdog, escaped, closePair,
    dist2, wSimA, wSimA', wEng, wP, Simulation.mk.injEq, Prod.mk.injEq]

/-- Witness for the escape-raising theorem at a concrete input. -/
theorem integrate_escape_raises_witness :
    ∃ sim', Simulation.integrate wEng wSimA 2 = (sim', some (SimError.EscapeDetected sim'.t)) ∧
      SimError.message (SimError.EscapeDetected sim'.t) =
        "A particle escaped (r>exit_max_distance)." ∧
      ∃ p ∈ sim'.particles, (50 : ℚ) * 50 < dist2 p :=
  integrate_escape_raises wEng wSimA 2 50 0 rfl rfl (by norm_num [wSimA])
    (by norm_num [wSimA]) (by norm_num [wSimA])
    (by norm_num [escaped, dist2, wEng, wSimA, wP, Function.iterate_one])

/-- Witness for the failure-boundary theorem at a concrete input. -/
theorem integrate_failure_boundary_witness :
    (SimError.EscapeDetected (1 : ℚ) = SimError.EscapeDetected wSimA'.t ∨
        SimError.EscapeDetected (1 : ℚ) = SimError.EncounterDetected wSimA'.t) ∧
      wSimA'.base_t = wSimA'.t ∧ wSimA'.particles = wSimA'.base ∧
      wSimA'.dt = wSimA.dt ∧ wSimA'.G = wSimA.G ∧ wSimA'.integrator = wSimA.integrator ∧
      wSimA'.exit_max_distance = wSimA.exit_max_distance ∧
      wSimA'.exit_min_distance = wSimA.exit_min_distance ∧
      ∃ k : Nat, 1 ≤ k ∧ wSimA'.t = wSimA.base_t + k * wSimA.dt ∧
        wSimA'.particles = (wEng.step wSimA.dt)^[k] wSimA.base :=
  integrate_failure_boundary wEng wSimA 2 wSimA' (SimError.EscapeDetected 1) wSimA_integrate

/-- A massless particle with a given hash, used in store scenarios. -/
def wQ (h : Nat) : Particle := ⟨0, 0, 0, 0, 0, 0, 0, h⟩

/-- Concrete store with four hashed particles (the a, b, c, d scenario). -/
def wSimB : Simulation :=
  { t := 0, dt := 1, G := 1, integrator := "ias15",
    particles := [wQ 1, wQ 2, wQ 3, wQ 4], base := [wQ 1, wQ 2, wQ 3, wQ 4],
    base_t := 0, exit_max_distance := none, exit_min_distance := 0,
    stepCount := 0, nextHash := 5 }

/-- The store `wSimB` after removing the particle with hash 2. -/
def wSimB' : Simulation :=
  { t := 0, dt := 1, G := 1, integrator := "ias15",
    particles := [wQ 1, wQ 3, wQ 4], base := [wQ 1, wQ 3, wQ 4],
    base_t := 0, exit_max_distance := none, exit_min_distance := 0,
    stepCount := 0, nextHash := 5 }

/-- Witness for the removal-survivors theorem at a concrete input. -/
theorem remove_keeps_survivors_witness :
    ∃ i, i < wSimB.particles.length ∧ wSimB'.particles = wSimB.particles.eraseIdx i ∧
      (∀ j, j < i → wSimB'.getByIndex j = wSimB.getByIndex j) ∧
      (∀ j, i ≤ j → wSimB'.getByIndex j = wSimB.getByIndex (j + 1)) ∧
      List.Sublist wSimB'.particles wSimB.particles ∧
      ∀ p ∈ wSimB'.particles,
        wSimB'.getByHash p.hash = some p ∧ wSimB.getByHash p.hash = some p :=
  remove_keeps_survivors wSimB (RemovalTarget.byHash 2) wSimB' (by decide) rfl

/-- Concrete watchdog-free simulation for the composition theorem. -/
def wSimC : Simulation :=
  { t := 0, dt := 1, G := 1, integrator := "ias15", particles := [wP 0 1],
    base := [wP 0 1], base_t := 0, exit_max_distance := none,
    exit_min_distance := 0, stepCount := 0, nextHash := 2 }

/-- Witness for the integration-composition theorem at a concrete input. -/
theorem integrate_monotone_composes_witness :
    ((wSimC.integrate wEng 1).1).integrate wEng 2 = wSimC.integrate wEng 2 :=
  integrate_monotone_composes wEng wSimC 1 2 (by norm_num [wSimC]) rfl rfl
    (by norm_num [wSimC]) (by norm_num [wSimC]) (by norm_num)

/-- Witness for the transactional-add theorem: a duplicate-hash add fails
and returns the store unchanged. -/
theorem add_failure_transactional_witness :
    Simulation.add conv0 wSimB (AddSpec.cart none 0 0 0 0 0 0 (some 2)) =
        (wSimB, some SimError.DuplicateHash) ∧ wSimB = wSimB :=
  ⟨rfl, add_failure_transactional conv0 wSimB (AddSpec.cart none 0 0 0 0 0 0 (some 2))
    wSimB SimError.DuplicateHash rfl⟩

/-- Concrete simulation with a single massive moving particle. -/
def wSimD : Simulation :=
  { t := 0, dt := 1, G := 1, integrator := "ias15",
    particles := [⟨2, 1, 0, 0, 3, 0, 0, 1⟩], base := [⟨2, 1, 0, 0, 3, 0, 0, 1⟩],
    base_t := 0, exit_max_distance := none, exit_min_distance := 0,
    stepCount := 0, nextHash := 2 }

/-- Witness for the centre-of-mass theorem at a concrete input. -/
theorem move_to_com_zero_momentum_idem_witness :
    wsum Particle.vx wSimD.move_to_com.particles = 0 ∧
      wsum Particle.vy wSimD.move_to_com.particles = 0 ∧
      wsum Particle.vz wSimD.move_to_com.particles = 0 ∧
      wSimD.move_to_com.move_to_com = wSimD.move_to_com :=
  move_to_com_zero_momentum_idem wSimD
    (by norm_num [totalMass, wSimD, List.sum_cons, List.sum_nil])

/-- Concrete operation sequence: two adds and a removal by hash. -/
def wOps : List StoreOp :=
  [StoreOp.addOp (AddSpec.cart none 1 0 0 0 0 0 (some 1)),
   StoreOp.addOp (AddSpec.cart (some 1) 0 0 0 0 0 0 (some 2)),
   StoreOp.removeOp (RemovalTarget.byHash 1)]

/-- The store reached by running `wOps` from the empty simulation. -/
def wSimE' : Simulation :=
  { t := 0, dt := 1/1000, G := 1, integrator := "ias15",
    particles := [⟨1, 0, 0, 0, 0, 0, 0, 2⟩], base := [⟨1, 0, 0, 0, 0, 0, 0, 2⟩],
    base_t := 0, exit_max_distance := none, exit_min_distance := 0,
    stepCount := 0, nextHash := 3 }

/-- Witness for the store-accounting theorem at a concrete input. -/
theorem store_ops_len_unique_witness :
    wSimE'.particles.length + countRemoves wOps =
        Simulation.empty.particles.length + countAdds wOps ∧
      ∀ p ∈ wSimE'.particles, wSimE'.particles.countP (fun q => q.hash == p.hash) = 1 :=
  store_ops_len_unique conv0 Simulation.empty wSimE' wOps
    ⟨by simp [Simulation.empty], by simp [Simulation.empty]⟩ rfl

/-- Witness for the element round-trip theorem at a concrete circular
coplanar orbit. -/
theorem orbit_roundtrip_a_e_witness :
    |cartToA 1 (elemsToCart 1 1 0 0 0 0 0).1 (elemsToCart 1 1 0 0 0 0 0).2 - 1| ≤
        1 / 10 ^ 10 * max |(1 : ℝ)| 1 ∧
      |cartToE 1 (elemsToCart 1 1 0 0 0 0 0).1 (elemsToCart 1 1 0 0 0 0 0).2 - 0| ≤
        1 / 10 ^ 10 * max |(0 : ℝ)| 1 :=
  orbit_roundtrip_a_e 1 1 0 0 0 0 0 one_pos one_pos le_rfl (by norm_num) le_rfl Real.pi_pos

/-- The store reached by adding a single massless Cartesian particle to
the empty simulation. -/
def wSimF' : Simulation :=
  { t := 0, dt := 1/1000, G := 1, integrator := "ias15",
    particles := [⟨0, 1, 0, 0, 0, 0, 0, 0⟩], base := [⟨0, 1, 0, 0, 0, 0, 0, 0⟩],
    base_t := 0, exit_max_distance := none, exit_min_distance := 0,
    stepCount := 0, nextHash := 1 }

/-- Witness for the defaults-and-massless theorem at a concrete input. -/
theorem defaults_and_massless_witness :
    ∃ p, wSimF'.particles = Simulation.empty.particles ++ [p] ∧ p.m = 0 :=
  defaults_and_massless.2.2 conv0 Simulation.empty
    (AddSpec.cart none 1 0 0 0 0 0 none) wSimF' rfl rfl
